import Mathlib

/-!
Verification of the `uavcan::Multiset` container
(`src/libuavcan/include/uavcan/util/multiset.hpp`).

The container stores elements in slots.  A slot (`Item` in the source) either
holds one constructed element (`ptr != NULL`) or is empty; we model it as
`Option T`.  Slots live either in the inline static array `static_` or in
dynamically allocated `Chunk`s, each chunk being a fixed array of `NumItems`
slots; chunks are kept in a singly linked list with insertion at the head.
The external pool allocator is modelled by the number of blocks it can still
hand out (`freeBlocks`): `allocate` succeeds exactly when that number is
positive, and `deallocate` gives the block back.

The embedding is a direct state-passing translation of the non-`UAVCAN_TINY`
build (the source's static assertions require `NumItems > 0`, carried here as
a hypothesis `0 < K` where it matters).  Pointers returned by the source are
modelled as slot references (`SlotRef`) or as the stored values themselves.
-/

set_option autoImplicit false

namespace Uavcan

variable {T S : Type}

/-- Removal strategy of `Multiset::removeWhere` (multiset.hpp line 134). -/
inductive RemoveStrategy where
  | RemoveOne
  | RemoveAll
deriving DecidableEq

open RemoveStrategy

/-- State of `Multiset<T, NumStaticEntries>` (multiset.hpp lines 120-125)
together with the borrowed allocator's state.  `static_` is the inline slot
array, `chunks` the chunk list in list order (head first), each chunk the list
of its slots in array order, and `freeBlocks` the number of blocks the pool
allocator can still allocate. -/
structure Multiset (T : Type) where
  static_ : List (Option T)
  chunks : List (List (Option T))
  freeBlocks : Nat
deriving DecidableEq

/-- A position inside the container, standing for the `Item*` pointers the
source hands around: a static slot index or a (chunk index, slot index) pair. -/
inductive SlotRef where
  | inStatic (i : Nat)
  | inChunk (c : Nat) (i : Nat)
deriving DecidableEq

/-- `Chunk::findFreeSlot` (lines 107-117): linear scan of the slot array for
the first slot whose item is not constructed; the source returns an `Item*`
(or `NULL`), the model returns the slot's index (or `none`). -/
def findFreeSlot : List (Option T) → Option Nat
  | [] => none
  | none :: _ => some 0
  | some _ :: rest => (findFreeSlot rest).map (· + 1)

/-- The dynamic-pool scan of `findOrCreateFreeSlot` (lines 364-376): walk the
chunk list in order and return the chunk index and slot index of the first
free slot reported by `findFreeSlot`. -/
def findFreeInChunks : List (List (Option T)) → Option (Nat × Nat)
  | [] => none
  | c :: rest =>
    match findFreeSlot c with
    | some i => some (0, i)
    | none => (findFreeInChunks rest).map (fun ci => (ci.1 + 1, ci.2))

/-- `Multiset::findOrCreateFreeSlot` (lines 350-386), with `K` the chunk
capacity `Chunk::NumItems`: search the static array, then the existing chunks,
then instantiate a new chunk (all slots empty) and insert it at the head of
the list, returning its slot 0; when the allocator is exhausted return `none`
with the state unchanged. -/
def findOrCreateFreeSlot (K : Nat) (m : Multiset T) : Option SlotRef × Multiset T :=
  match findFreeSlot m.static_ with
  | some i => (some (SlotRef.inStatic i), m)
  | none =>
    match findFreeInChunks m.chunks with
    | some ci => (some (SlotRef.inChunk ci.1 ci.2), m)
    | none =>
      match m.freeBlocks with
      | 0 => (none, m)
      | fb + 1 =>
        (some (SlotRef.inChunk 0 0),
         { m with chunks := List.replicate K none :: m.chunks, freeBlocks := fb })

/-- Dereference a slot reference: `some slot` when the position exists. -/
def slotAt (m : Multiset T) : SlotRef → Option (Option T)
  | SlotRef.inStatic i => m.static_[i]?
  | SlotRef.inChunk c i => m.chunks[c]?.bind (fun ch => ch[i]?)

/-- Overwrite the slot at a reference (placement construction / destruction
of the item living there). -/
def setSlot (m : Multiset T) (r : SlotRef) (v : Option T) : Multiset T :=
  match r with
  | SlotRef.inStatic i => { m with static_ := m.static_.set i v }
  | SlotRef.inChunk c i =>
    { m with chunks :=
        match m.chunks[c]? with
        | none => m.chunks
        | some ch => m.chunks.set c (ch.set i v) }

/-- `Multiset::emplace` (lines 208-218): obtain a slot from
`findOrCreateFreeSlot`; on `none` fail without further effect, otherwise
construct the element in that slot and return its position. -/
def emplace (K : Nat) (v : T) (m : Multiset T) : Option SlotRef × Multiset T :=
  match findOrCreateFreeSlot K m with
  | (none, m1) => (none, m1)
  | (some r, m1) => (some r, setSlot m1 r (some v))

/-- The occupancy count loop shared by `getNumStaticItems` (lines 511-522) and
the per-chunk part of `getNumDynamicItems` (lines 524-538). -/
def countConstructed : List (Option T) → Nat
  | [] => 0
  | s :: rest => (if s.isSome then 1 else 0) + countConstructed rest

/-- `Multiset::getNumStaticItems` (lines 511-522). -/
def getNumStaticItems (m : Multiset T) : Nat := countConstructed m.static_

/-- The chunk-list walk of `getNumDynamicItems` (lines 524-538). -/
def countDynamic : List (List (Option T)) → Nat
  | [] => 0
  | c :: rest => countConstructed c + countDynamic rest

/-- `Multiset::getNumDynamicItems` (lines 524-538). -/
def getNumDynamicItems (m : Multiset T) : Nat := countDynamic m.chunks

/-- `Multiset::getSize` (line 336). -/
def getSize (m : Multiset T) : Nat := getNumStaticItems m + getNumDynamicItems m

/-- The elements held by a list of slots, in slot order. -/
def elemsOfSlots (l : List (Option T)) : List T := l.filterMap id

/-- All elements of the container in traversal order: static slots in index
order, then chunks in list order, each chunk's slots in array order. -/
def elems (m : Multiset T) : List T :=
  elemsOfSlots m.static_ ++ (m.chunks.map elemsOfSlots).flatten

/-- The static-array loop of `Multiset::find` (lines 477-488), generalised to
stateful predicates: the C++ predicate objects may carry mutable state (for
example `IndexPredicate`), modelled as a state `S` threaded through the
traversal.  Occupied slots only are offered to the predicate. -/
def findSlots (pred : S → T → Bool × S) : List (Option T) → S → Option T × S
  | [], s => (none, s)
  | none :: rest, s => findSlots pred rest s
  | some t :: rest, s =>
    match pred s t with
    | (true, s') => (some t, s')
    | (false, s') => findSlots pred rest s'

/-- The chunk-list loop of `Multiset::find` (lines 490-507). -/
def findChunks (pred : S → T → Bool × S) : List (List (Option T)) → S → Option T × S
  | [], s => (none, s)
  | c :: rest, s =>
    match findSlots pred c s with
    | (some t, s') => (some t, s')
    | (none, s') => findChunks pred rest s'

/-- `Multiset::find` (lines 473-509): static slots first, then the chunks. -/
def find (pred : S → T → Bool × S) (m : Multiset T) (s : S) : Option T × S :=
  match findSlots pred m.static_ s with
  | (some t, s') => (some t, s')
  | (none, s') => findChunks pred m.chunks s'

/-- Specification-side scan (spec §4.4): run the predicate down the list of
elements in traversal order, returning the first match and the final state. -/
def findSpecification (pred : S → T → Bool × S) : List T → S → Option T × S
  | [], s => (none, s)
  | t :: rest, s =>
    match pred s t with
    | (true, s') => (some t, s')
    | (false, s') => findSpecification pred rest s'

/-- `Multiset::YesPredicate` (lines 139-142). -/
def yesPredicate : S → T → Bool × S := fun s _ => (true, s)

/-- `Multiset::isEmpty` (line 330). -/
def isEmpty (m : Multiset T) : Bool :=
  ((find (S := Unit) yesPredicate m ()).1).isNone

/-- `Multiset::IndexPredicate` (lines 144-155): `index-- == 0`.  The unsigned
wrap of the post-decrement at 0 is unobservable because the predicate returns
true there and the traversal stops, so `Nat` subtraction is faithful. -/
def indexPredicate : Nat → T → Bool × Nat := fun index _ => (index == 0, index - 1)

/-- `Multiset::getByIndex` (lines 316-320). -/
def getByIndex (index : Nat) (m : Multiset T) : Option T :=
  (find indexPredicate m index).1

/-- `Multiset::forEach` (lines 296-308) via
`OperatorToFalsePredicateAdapter` (lines 171-191): the operator's side effects
are modelled as a state `S` it folds over; the adapter runs the operator and
always answers `false`.  Returns the operator's final state. -/
def forEach (oper : S → T → S) (m : Multiset T) (s : S) : S :=
  (find (fun s t => (false, oper s t)) m s).2

/-- The slot-array loop of `Multiset::removeWhere` (lines 419-434 for the
static array, 447-462 for a chunk's slots): destroy each occupied slot whose
element matches, and under `RemoveOne` break out right after the first
removal.  Returns the updated slots and the number of removals. -/
def removeSlots (pred : T → Bool) (strategy : RemoveStrategy) :
    List (Option T) → List (Option T) × Nat
  | [] => ([], 0)
  | none :: rest =>
    let r := removeSlots pred strategy rest
    (none :: r.1, r.2)
  | some t :: rest =>
    if pred t then
      if strategy = RemoveOne then (none :: rest, 1)
      else
        let r := removeSlots pred strategy rest
        (none :: r.1, r.2 + 1)
    else
      let r := removeSlots pred strategy rest
      (some t :: r.1, r.2)

/-- The chunk-list loop of `Multiset::removeWhere` (lines 437-465), threading
the running `num_removed`: before inspecting a chunk, break when something was
already removed under `RemoveOne`. -/
def removeChunks (pred : T → Bool) (strategy : RemoveStrategy) :
    Nat → List (List (Option T)) → List (List (Option T)) × Nat
  | n, [] => ([], n)
  | n, c :: rest =>
    if 0 < n ∧ strategy = RemoveOne then (c :: rest, n)
    else
      let rc := removeSlots pred strategy c
      let rr := removeChunks pred strategy (n + rc.2) rest
      (rc.1 :: rr.1, rr.2)

/-- The chunk walk of `Multiset::compact` (lines 388-411): a chunk none of
whose slots is constructed is unlinked and destroyed (its block returned to
the allocator).  Returns the surviving chunks in order and the number of
released chunks. -/
def compactChunks : List (List (Option T)) → List (List (Option T)) × Nat
  | [] => ([], 0)
  | c :: rest =>
    let r := compactChunks rest
    if c.any Option.isSome then (c :: r.1, r.2) else (r.1, r.2 + 1)

/-- `Multiset::compact` (lines 388-411). -/
def compact (m : Multiset T) : Multiset T :=
  { m with chunks := (compactChunks m.chunks).1,
           freeBlocks := m.freeBlocks + (compactChunks m.chunks).2 }

/-- `Multiset::removeWhere` (lines 413-471): static loop, then chunk loop,
then `compact()` when at least one element was removed. -/
def removeWhere (pred : T → Bool) (strategy : RemoveStrategy) (m : Multiset T) :
    Multiset T :=
  let rs := removeSlots pred strategy m.static_
  let rc := removeChunks pred strategy rs.2 m.chunks
  let m' : Multiset T := { static_ := rs.1, chunks := rc.1, freeBlocks := m.freeBlocks }
  if 0 < rc.2 then compact m' else m'

/-- Number of elements `removeWhere` destroys (the source's `num_removed`). -/
def removeWhereCount (pred : T → Bool) (strategy : RemoveStrategy) (m : Multiset T) : Nat :=
  (removeChunks pred strategy (removeSlots pred strategy m.static_).2 m.chunks).2

/-- `Multiset::removeAllWhere` (line 265). -/
def removeAllWhere (pred : T → Bool) (m : Multiset T) : Multiset T :=
  removeWhere pred RemoveAll m

/-- `Multiset::removeFirstWhere` (line 268). -/
def removeFirstWhere (pred : T → Bool) (m : Multiset T) : Multiset T :=
  removeWhere pred RemoveOne m

/-- `Multiset::ComparingPredicate` (lines 157-169). -/
def comparingPredicate [BEq T] (ref : T) : T → Bool := fun sample => ref == sample

/-- `Multiset::removeFirst` (line 270). -/
def removeFirst [BEq T] (ref : T) (m : Multiset T) : Multiset T :=
  removeFirstWhere (comparingPredicate ref) m

/-- `Multiset::removeAll` (line 272). -/
def removeAll [BEq T] (ref : T) (m : Multiset T) : Multiset T :=
  removeAllWhere (comparingPredicate ref) m

/-- `Multiset::clear` (line 274): `removeAllWhere(YesPredicate())`. -/
def clear (m : Multiset T) : Multiset T :=
  removeAllWhere (fun _ => true) m

/-- The chunk invariant (spec §3): every chunk in the list holds at least one
constructed element. -/
def ChunksNonEmpty (m : Multiset T) : Prop :=
  ∀ c ∈ m.chunks, c.any Option.isSome = true

/-- A mutating public operation of the container, for reachability statements;
`removeFirst`/`removeAll`/`clear` are the predicate forms instantiated with
`ComparingPredicate`/`YesPredicate`, and the read-only operations (`find`,
`forEach`, `getByIndex`, `getSize`) do not touch the state. -/
inductive Op (T : Type) where
  | emplace (v : T)
  | removeFirstWhere (pred : T → Bool)
  | removeAllWhere (pred : T → Bool)
  | clear

/-- Run one operation. -/
def runOp (K : Nat) : Op T → Multiset T → Multiset T
  | Op.emplace v, m => (emplace K v m).2
  | Op.removeFirstWhere p, m => removeFirstWhere p m
  | Op.removeAllWhere p, m => removeAllWhere p m
  | Op.clear, m => clear m

/-- Run a sequence of operations. -/
def runOps (K : Nat) : List (Op T) → Multiset T → Multiset T
  | [], m => m
  | o :: ops, m => runOps K ops (runOp K o m)

/-- The independent bookkeeping a test would do for one operation: plus one
for a successful emplace, minus the number of elements the operation removes,
computed from the element list rather than from the container's counters. -/
def opDelta (K : Nat) (o : Op T) (m : Multiset T) (n : Nat) : Nat :=
  match o with
  | Op.emplace v => if (emplace K v m).1.isSome then n + 1 else n
  | Op.removeFirstWhere p => n - (if (elems m).any p then 1 else 0)
  | Op.removeAllWhere p => n - (elems m).countP p
  | Op.clear => n - (elems m).length

/-- Fold the independent count over a sequence of operations. -/
def countAfter (K : Nat) : List (Op T) → Multiset T → Nat → Nat
  | [], _, n => n
  | o :: ops, m, n => countAfter K ops (runOp K o m) (opDelta K o m n)

/-! ### Basic facts about slot lists -/

theorem elemsOfSlots_cons_none (l : List (Option T)) :
    elemsOfSlots (none :: l) = elemsOfSlots l := rfl

theorem elemsOfSlots_cons_some (t : T) (l : List (Option T)) :
    elemsOfSlots (some t :: l) = t :: elemsOfSlots l := rfl

theorem countConstructed_eq_length (l : List (Option T)) :
    countConstructed l = (elemsOfSlots l).length := by
  induction l with
  | nil => rfl
  | cons hd tl ih =>
    cases hd <;>
      simp [countConstructed, elemsOfSlots_cons_none, elemsOfSlots_cons_some, ih,
        Nat.add_comm]

theorem countDynamic_eq_length (cs : List (List (Option T))) :
    countDynamic cs = ((cs.map elemsOfSlots).flatten).length := by
  induction cs with
  | nil => rfl
  | cons c rest ih => simp [countDynamic, countConstructed_eq_length, ih]

theorem getSize_eq_length_elems (m : Multiset T) :
    getSize m = (elems m).length := by
  simp [getSize, getNumStaticItems, getNumDynamicItems, elems,
    countConstructed_eq_length, countDynamic_eq_length]

/-! ### The traversal of `find` refines a single scan of `elems` -/

theorem findSlots_eq_spec (pred : S → T → Bool × S) (l : List (Option T)) (s : S) :
    findSlots pred l s = findSpecification pred (elemsOfSlots l) s := by
  induction l generalizing s with
  | nil => rfl
  | cons hd tl ih =>
    cases hd with
    | none => simpa [findSlots, elemsOfSlots_cons_none] using ih s
    | some t =>
      rw [elemsOfSlots_cons_some]
      simp only [findSlots, findSpecification]
      cases h : pred s t with
      | mk b s' => cases b <;> simp [ih]

theorem findSpecification_append (pred : S → T → Bool × S) (l1 l2 : List T) (s : S) :
    findSpecification pred (l1 ++ l2) s =
      match findSpecification pred l1 s with
      | (some t, s') => (some t, s')
      | (none, s') => findSpecification pred l2 s' := by
  induction l1 generalizing s with
  | nil => rfl
  | cons t rest ih =>
    simp only [List.cons_append, findSpecification]
    cases h : pred s t with
    | mk b s' => cases b <;> simp [ih]

theorem findChunks_eq_spec (pred : S → T → Bool × S) (cs : List (List (Option T))) (s : S) :
    findChunks pred cs s = findSpecification pred ((cs.map elemsOfSlots).flatten) s := by
  induction cs generalizing s with
  | nil => rfl
  | cons c rest ih =>
    simp only [findChunks, List.map_cons, List.flatten_cons, findSpecification_append,
      findSlots_eq_spec]
    cases h : findSpecification pred (elemsOfSlots c) s with
    | mk o s' => cases o <;> simp [ih]

theorem find_eq_spec (pred : S → T → Bool × S) (m : Multiset T) (s : S) :
    find pred m s = findSpecification pred (elems m) s := by
  simp only [find, elems, findSpecification_append, findSlots_eq_spec]
  cases h : findSpecification pred (elemsOfSlots m.static_) s with
  | mk o s' => cases o <;> simp [findChunks_eq_spec]

theorem findSpecification_stateless (p : T → Bool) (l : List T) :
    (findSpecification (fun u t => (p t, u)) l ()).1 = l.find? p := by
  induction l with
  | nil => rfl
  | cons t rest ih =>
    by_cases h : p t <;> simp [findSpecification, List.find?, h, ih]

/-- Claim C2: `find(predicate)` is a single pass over the occupied elements in
traversal order — static slots in index order, then chunks in list order, each
chunk's slots in array order — invoking the predicate only on occupied slots
(it agrees with the specification scan over `elems`); in particular for a
stateless predicate it returns the first element on which the predicate is
true, and `none` when no occupied element satisfies it. -/
theorem find_returns_first_match (pred : S → T → Bool × S) (p : T → Bool)
    (m : Multiset T) (s : S) :
    find pred m s = findSpecification pred (elems m) s ∧
    (find (fun u t => (p t, u)) m ()).1 = (elems m).find? p := by
  refine ⟨find_eq_spec pred m s, ?_⟩
  rw [find_eq_spec]
  exact findSpecification_stateless p (elems m)

theorem findSpecification_index (l : List T) (i : Nat) :
    (findSpecification indexPredicate l i).1 = l[i]? := by
  induction l generalizing i with
  | nil => rfl
  | cons t rest ih =>
    cases i with
    | zero => simp [findSpecification, indexPredicate]
    | succ k => simp [findSpecification, indexPredicate, ih]

/-- Claim C7: `getByIndex i` yields the `i`-th occupied element in traversal
order (the order `forEach` uses), i.e. position `i` of `elems`, and therefore
enumerates each occupied element exactly once for `i < getSize` and returns
`none` for every `i ≥ getSize`, `getSize` being the length of `elems`. -/
theorem getByIndex_is_traversal_position (m : Multiset T) (i : Nat) :
    getByIndex i m = (elems m)[i]? ∧ getSize m = (elems m).length := by
  refine ⟨?_, getSize_eq_length_elems m⟩
  rw [getByIndex, find_eq_spec]
  exact findSpecification_index (elems m) i

theorem findSpecification_adapter (oper : S → T → S) (l : List T) (s : S) :
    findSpecification (fun s t => (false, oper s t)) l s = (none, l.foldl oper s) := by
  induction l generalizing s with
  | nil => rfl
  | cons t rest ih => simp [findSpecification, List.foldl, ih]

/-- Claim C9: `forEach` applies the operation exactly once to every element in
traversal order — its state is the fold of the operation over `elems` — and
the adapter predicate always answers `false`, so the traversal never matches:
no removal is triggered and no early halt occurs (`find` reports `none`).  The
embedding's `find` is a pure function of the container, so the container state
(slot occupancy, chunk list, size) is unchanged by construction. -/
theorem forEach_visits_all_once (oper : S → T → S) (m : Multiset T) (s : S) :
    forEach oper m s = (elems m).foldl oper s ∧
    (find (fun s t => (false, oper s t)) m s).1 = none := by
  constructor
  · rw [forEach, find_eq_spec, findSpecification_adapter]
  · rw [find_eq_spec, findSpecification_adapter]

/-! ### The removal traversal -/

theorem removeSlots_all_spec (p : T → Bool) (l : List (Option T)) :
    elemsOfSlots (removeSlots p RemoveAll l).1 = (elemsOfSlots l).filter (fun t => !p t) ∧
    (removeSlots p RemoveAll l).2 = (elemsOfSlots l).countP p := by
  induction l with
  | nil => exact ⟨rfl, rfl⟩
  | cons hd tl ih =>
    cases hd with
    | none => simpa [removeSlots, elemsOfSlots_cons_none] using ih
    | some t =>
      by_cases h : p t <;>
        simp [removeSlots, h, elemsOfSlots_cons_some, elemsOfSlots_cons_none,
          ih.1, ih.2, List.countP_cons]

theorem removeSlots_one_spec (p : T → Bool) (l : List (Option T)) :
    elemsOfSlots (removeSlots p RemoveOne l).1 = (elemsOfSlots l).eraseP p ∧
    (removeSlots p RemoveOne l).2 = (if (elemsOfSlots l).any p then 1 else 0) := by
  induction l with
  | nil => exact ⟨rfl, rfl⟩
  | cons hd tl ih =>
    cases hd with
    | none => simpa [removeSlots, elemsOfSlots_cons_none] using ih
    | some t =>
      by_cases h : p t <;>
        simp [removeSlots, h, elemsOfSlots_cons_some, elemsOfSlots_cons_none,
          List.eraseP_cons, ih.1, ih.2]

theorem removeSlots_count_zero (p : T → Bool) (strat : RemoveStrategy)
    (l : List (Option T)) (h : (removeSlots p strat l).2 = 0) :
    (removeSlots p strat l).1 = l := by
  induction l with
  | nil => rfl
  | cons hd tl ih =>
    cases hd with
    | none =>
      simp only [removeSlots] at h ⊢
      rw [ih h]
    | some t =>
      by_cases hp : p t
      · by_cases hs : strat = RemoveOne <;> simp [removeSlots, hp, hs] at h
      · simp only [removeSlots, if_neg hp] at h ⊢
        rw [ih h]

theorem removeChunks_break (p : T → Bool) (n : Nat) (cs : List (List (Option T)))
    (hn : 0 < n) : removeChunks p RemoveOne n cs = (cs, n) := by
  cases cs with
  | nil => rfl
  | cons c rest => simp [removeChunks, hn]

theorem removeChunks_cons_go (p : T → Bool) (strat : RemoveStrategy) (n : Nat)
    (c : List (Option T)) (rest : List (List (Option T)))
    (hg : ¬ (0 < n ∧ strat = RemoveOne)) :
    removeChunks p strat n (c :: rest)
      = ((removeSlots p strat c).1
            :: (removeChunks p strat (n + (removeSlots p strat c).2) rest).1,
         (removeChunks p strat (n + (removeSlots p strat c).2) rest).2) := by
  simp only [removeChunks]
  rw [if_neg hg]

theorem removeChunks_all_spec (p : T → Bool) (n : Nat) (cs : List (List (Option T))) :
    ((removeChunks p RemoveAll n cs).1.map elemsOfSlots).flatten
      = ((cs.map elemsOfSlots).flatten).filter (fun t => !p t) ∧
    (removeChunks p RemoveAll n cs).2 = n + ((cs.map elemsOfSlots).flatten).countP p := by
  induction cs generalizing n with
  | nil => simp [removeChunks]
  | cons c rest ih =>
    rw [removeChunks_cons_go p RemoveAll n c rest (fun h => absurd h.2 (by decide))]
    constructor
    · simp only [List.map_cons, List.flatten_cons]
      rw [(ih (n + (removeSlots p RemoveAll c).2)).1, (removeSlots_all_spec p c).1,
        List.filter_append]
    · simp only [List.map_cons, List.flatten_cons]
      rw [(ih (n + (removeSlots p RemoveAll c).2)).2, (removeSlots_all_spec p c).2,
        List.countP_append]
      omega

theorem removeChunks_count_zero (p : T → Bool) (strat : RemoveStrategy)
    (cs : List (List (Option T))) (n : Nat)
    (h : (removeChunks p strat n cs).2 = 0) :
    (removeChunks p strat n cs).1 = cs ∧ n = 0 := by
  induction cs generalizing n with
  | nil => exact ⟨rfl, h⟩
  | cons c rest ih =>
    by_cases hg : 0 < n ∧ strat = RemoveOne
    · simp only [removeChunks, if_pos hg] at h ⊢
      omega
    · simp only [removeChunks, if_neg hg] at h ⊢
      obtain ⟨h1, h2⟩ := ih (n + (removeSlots p strat c).2) h
      have hn : n = 0 ∧ (removeSlots p strat c).2 = 0 := by omega
      refine ⟨?_, hn.1⟩
      rw [h1, removeSlots_count_zero p strat c hn.2]

theorem removeChunks_one_spec (p : T → Bool) (cs : List (List (Option T))) :
    ((removeChunks p RemoveOne 0 cs).1.map elemsOfSlots).flatten
      = ((cs.map elemsOfSlots).flatten).eraseP p ∧
    (removeChunks p RemoveOne 0 cs).2
      = (if ((cs.map elemsOfSlots).flatten).any p then 1 else 0) := by
  induction cs with
  | nil => simp [removeChunks]
  | cons c rest ih =>
    rw [removeChunks_cons_go p RemoveOne 0 c rest (fun h => absurd h.1 (by simp))]
    by_cases hc : (elemsOfSlots c).any p = true
    · have h2 : (removeSlots p RemoveOne c).2 = 1 := by
        rw [(removeSlots_one_spec p c).2, hc, if_pos rfl]
      obtain ⟨x, hx, hpx⟩ := List.any_eq_true.mp hc
      rw [h2, Nat.zero_add, removeChunks_break p 1 rest Nat.one_pos]
      constructor
      · simp only [List.map_cons, List.flatten_cons]
        rw [(removeSlots_one_spec p c).1,
          List.eraseP_append_left hpx ((rest.map elemsOfSlots).flatten) hx]
      · simp [List.any_append, hc]
    · have hc' : (elemsOfSlots c).any p = false := by
        simpa using hc
      have h2 : (removeSlots p RemoveOne c).2 = 0 := by
        rw [(removeSlots_one_spec p c).2, hc', if_neg (by simp)]
      have h1 : (removeSlots p RemoveOne c).1 = c :=
        removeSlots_count_zero p RemoveOne c h2
      have hnall : ∀ b ∈ elemsOfSlots c, ¬ p b = true := by
        intro b hb
        exact (List.any_eq_false.mp hc') b hb
      rw [h2, Nat.add_zero]
      constructor
      · simp only [List.map_cons, List.flatten_cons, h1]
        rw [ih.1, List.eraseP_append_right _ hnall]
      · simp only [List.map_cons, List.flatten_cons]
        rw [ih.2]
        simp [List.any_append, hc']

/-! ### Compaction -/

theorem compactChunks_fst (cs : List (List (Option T))) :
    (compactChunks cs).1 = cs.filter (fun c => c.any Option.isSome) := by
  induction cs with
  | nil => rfl
  | cons c rest ih =>
    by_cases h : c.any Option.isSome = true <;>
      simp [compactChunks, h, ih, List.filter_cons]

theorem compactChunks_snd (cs : List (List (Option T))) :
    (compactChunks cs).2 = cs.countP (fun c => !(c.any Option.isSome)) := by
  induction cs with
  | nil => rfl
  | cons c rest ih =>
    by_cases h : c.any Option.isSome = true <;>
      simp [compactChunks, h, ih, List.countP_cons]

theorem elemsOfSlots_eq_nil (l : List (Option T)) (h : l.any Option.isSome = false) :
    elemsOfSlots l = [] := by
  induction l with
  | nil => rfl
  | cons hd tl ih =>
    cases hd with
    | none =>
      rw [elemsOfSlots_cons_none]
      exact ih (by simpa using h)
    | some t => simp at h

theorem compact_elems (m : Multiset T) : elems (compact m) = elems m := by
  simp only [elems, compact, compactChunks_fst]
  congr 1
  generalize m.chunks = cs
  induction cs with
  | nil => rfl
  | cons c rest ih =>
    by_cases h : c.any Option.isSome = true
    · simp [List.filter_cons, h, ih]
    · simp [List.filter_cons, h, ih,
        elemsOfSlots_eq_nil c (by simpa using h)]

theorem removeWhere_elems_split (p : T → Bool) (strat : RemoveStrategy) (m : Multiset T) :
    elems (removeWhere p strat m)
      = elemsOfSlots (removeSlots p strat m.static_).1
        ++ (((removeChunks p strat (removeSlots p strat m.static_).2 m.chunks).1).map
              elemsOfSlots).flatten := by
  unfold removeWhere
  by_cases h : 0 < (removeChunks p strat (removeSlots p strat m.static_).2 m.chunks).2
  · simp only [h, if_true]
    rw [compact_elems]
    rfl
  · simp only [h, if_false]
    rfl

theorem removeFirstWhere_elems (p : T → Bool) (m : Multiset T) :
    elems (removeFirstWhere p m) = (elems m).eraseP p := by
  rw [removeFirstWhere, removeWhere_elems_split]
  by_cases hs : (elemsOfSlots m.static_).any p = true
  · have h2 : (removeSlots p RemoveOne m.static_).2 = 1 := by
      rw [(removeSlots_one_spec p m.static_).2, hs, if_pos rfl]
    obtain ⟨x, hx, hpx⟩ := List.any_eq_true.mp hs
    rw [h2, removeChunks_break p 1 m.chunks Nat.one_pos,
      (removeSlots_one_spec p m.static_).1, elems,
      List.eraseP_append_left hpx _ hx]
  · have hs' : (elemsOfSlots m.static_).any p = false := by simpa using hs
    have h2 : (removeSlots p RemoveOne m.static_).2 = 0 := by
      rw [(removeSlots_one_spec p m.static_).2, hs', if_neg (by simp)]
    have hnall : ∀ b ∈ elemsOfSlots m.static_, ¬ p b = true := by
      intro b hb
      exact (List.any_eq_false.mp hs') b hb
    rw [h2, (removeSlots_one_spec p m.static_).1,
      (removeChunks_one_spec p m.chunks).1, elems,
      List.eraseP_append_right _ hnall,
      List.eraseP_of_forall_not hnall]

theorem removeAllWhere_elems (p : T → Bool) (m : Multiset T) :
    elems (removeAllWhere p m) = (elems m).filter (fun t => !p t) := by
  rw [removeAllWhere, removeWhere_elems_split,
    (removeSlots_all_spec p m.static_).1,
    (removeChunks_all_spec p (removeSlots p RemoveAll m.static_).2 m.chunks).1,
    elems, List.filter_append]

/-- Claim C1: over every container state and every predicate, removal with
strategy `RemoveOne` (`removeFirstWhere`) destroys exactly the first occupied
element in traversal order satisfying the predicate — at most one element —
halting the traversal there (the element list becomes `eraseP` of the
traversal list), while strategy `RemoveAll` (`removeAllWhere`) destroys every
occupied element satisfying the predicate, traversing all static slots and all
chunks (the element list becomes the `filter` by the negated predicate);
elements on which the predicate is false are kept, in order. -/
theorem removeWhere_one_or_all (p : T → Bool) (m : Multiset T) :
    elems (removeFirstWhere p m) = (elems m).eraseP p ∧
    elems (removeAllWhere p m) = (elems m).filter (fun t => !p t) :=
  ⟨removeFirstWhere_elems p m, removeAllWhere_elems p m⟩

/-! ### Free-slot search -/

theorem findFreeSlot_eq_findIdx (l : List (Option T)) :
    findFreeSlot l = l.findIdx? (fun s => s.isNone) := by
  induction l with
  | nil => rfl
  | cons hd tl ih =>
    cases hd with
    | none => simp [findFreeSlot]
    | some t => simp [findFreeSlot, ih, List.findIdx?_succ]

theorem findFreeSlot_none_iff (l : List (Option T)) :
    findFreeSlot l = none ↔ ∀ s ∈ l, s.isSome = true := by
  induction l with
  | nil => simp [findFreeSlot]
  | cons hd tl ih =>
    cases hd with
    | none => simp [findFreeSlot]
    | some t => simp [findFreeSlot, ih]

theorem findFreeSlot_get (l : List (Option T)) (i : Nat)
    (h : findFreeSlot l = some i) : l[i]? = some none := by
  induction l generalizing i with
  | nil => cases h
  | cons hd tl ih =>
    cases hd with
    | none =>
      simp only [findFreeSlot] at h
      injection h with h
      subst h
      simp
    | some t =>
      simp only [findFreeSlot] at h
      cases hf : findFreeSlot tl with
      | none => rw [hf] at h; cases h
      | some k =>
        rw [hf] at h
        simp only [Option.map_some'] at h
        injection h with h
        subst h
        simpa using ih k hf

theorem findFreeInChunks_none_iff (cs : List (List (Option T))) :
    findFreeInChunks cs = none ↔ ∀ c ∈ cs, ∀ s ∈ c, s.isSome = true := by
  induction cs with
  | nil => simp [findFreeInChunks]
  | cons c rest ih =>
    cases h : findFreeSlot c with
    | some i =>
      simp only [findFreeInChunks, h]
      constructor
      · intro hx
        exact absurd hx (by simp)
      · intro hall
        have hc := (findFreeSlot_none_iff c).mpr
          (fun s hs => hall c (List.mem_cons_self c rest) s hs)
        rw [hc] at h
        cases h
    | none =>
      simp only [findFreeInChunks, h]
      simp only [Option.map_eq_none', ih, List.forall_mem_cons]
      exact ⟨fun hr => ⟨(findFreeSlot_none_iff c).mp h, hr⟩, fun hr => hr.2⟩

theorem findFreeInChunks_get (cs : List (List (Option T))) (c i : Nat)
    (h : findFreeInChunks cs = some (c, i)) :
    ∃ ch, cs[c]? = some ch ∧ findFreeSlot ch = some i := by
  induction cs generalizing c i with
  | nil => cases h
  | cons c0 rest ih =>
    cases hf : findFreeSlot c0 with
    | some k =>
      simp only [findFreeInChunks, hf, Option.some.injEq, Prod.mk.injEq] at h
      obtain ⟨h1, h2⟩ := h
      subst h1
      subst h2
      exact ⟨c0, by simp, hf⟩
    | none =>
      simp only [findFreeInChunks, hf] at h
      cases hr : findFreeInChunks rest with
      | none => rw [hr] at h; cases h
      | some ci =>
        obtain ⟨c1, i1⟩ := ci
        rw [hr] at h
        simp only [Option.map_some', Option.some.injEq, Prod.mk.injEq] at h
        obtain ⟨h1, h2⟩ := h
        subst h1
        subst h2
        obtain ⟨ch, hch, hfree⟩ := ih c1 i1 hr
        exact ⟨ch, by simpa using hch, hfree⟩

theorem findFreeInChunks_eq_findIdx (cs : List (List (Option T))) :
    findFreeInChunks cs
      = (cs.findIdx? (fun ch => (findFreeSlot ch).isSome)).bind
          (fun c => (cs[c]?.bind findFreeSlot).map (fun i => (c, i))) := by
  induction cs with
  | nil => rfl
  | cons c0 rest ih =>
    cases hf : findFreeSlot c0 with
    | some k => simp [findFreeInChunks, hf]
    | none =>
      simp only [findFreeInChunks]
      rw [hf, ih, List.findIdx?_cons]
      rw [if_neg (by rw [hf]; simp), List.findIdx?_succ]
      cases hr : rest.findIdx? (fun ch => (findFreeSlot ch).isSome) with
      | none => simp
      | some k =>
        simp only [Option.map_some', Option.some_bind]
        cases hg : rest[k]?.bind findFreeSlot with
        | none => simp [hg]
        | some j => simp [hg]

/-! ### `findOrCreateFreeSlot`, case by case -/

theorem focfs_static (K : Nat) (m : Multiset T) (i : Nat)
    (h : findFreeSlot m.static_ = some i) :
    findOrCreateFreeSlot K m = (some (SlotRef.inStatic i), m) := by
  unfold findOrCreateFreeSlot
  rw [h]

theorem focfs_chunk (K : Nat) (m : Multiset T) (c i : Nat)
    (h1 : findFreeSlot m.static_ = none)
    (h2 : findFreeInChunks m.chunks = some (c, i)) :
    findOrCreateFreeSlot K m = (some (SlotRef.inChunk c i), m) := by
  unfold findOrCreateFreeSlot
  rw [h1, h2]

theorem focfs_newChunk (K : Nat) (m : Multiset T) (fb : Nat)
    (h1 : findFreeSlot m.static_ = none)
    (h2 : findFreeInChunks m.chunks = none)
    (h3 : m.freeBlocks = fb + 1) :
    findOrCreateFreeSlot K m
      = (some (SlotRef.inChunk 0 0),
         { static_ := m.static_, chunks := List.replicate K none :: m.chunks,
           freeBlocks := fb }) := by
  unfold findOrCreateFreeSlot
  rw [h1, h2, h3]

theorem focfs_fail (K : Nat) (m : Multiset T)
    (h1 : findFreeSlot m.static_ = none)
    (h2 : findFreeInChunks m.chunks = none)
    (h3 : m.freeBlocks = 0) :
    findOrCreateFreeSlot K m = (none, m) := by
  unfold findOrCreateFreeSlot
  rw [h1, h2, h3]

/-- Claim C4: `findOrCreateFreeSlot` searches in order, first success winning:
(1) the static array — when it has a free slot, the first free index is
returned and nothing changes; (2) the existing chunks in list order, each
scanned by `findFreeSlot`, returning the first chunk's first free slot;
(3) allocation of a new chunk, which on success is linked at the head of the
chunk list and whose slot 0 is returned; on allocator failure the result is
`none` and the state unchanged.  The last two conjuncts pin down the scans as
first-index searches (`findIdx?`). -/
theorem findOrCreateFreeSlot_search_order (K : Nat) (m : Multiset T) :
    (∀ i, findFreeSlot m.static_ = some i →
      findOrCreateFreeSlot K m = (some (SlotRef.inStatic i), m)) ∧
    (findFreeSlot m.static_ = none → ∀ c i, findFreeInChunks m.chunks = some (c, i) →
      findOrCreateFreeSlot K m = (some (SlotRef.inChunk c i), m)) ∧
    (findFreeSlot m.static_ = none → findFreeInChunks m.chunks = none →
      ∀ fb, m.freeBlocks = fb + 1 →
      findOrCreateFreeSlot K m
        = (some (SlotRef.inChunk 0 0),
           { static_ := m.static_, chunks := List.replicate K none :: m.chunks,
             freeBlocks := fb })) ∧
    (findFreeSlot m.static_ = none → findFreeInChunks m.chunks = none →
      m.freeBlocks = 0 → findOrCreateFreeSlot K m = (none, m)) ∧
    (∀ l : List (Option T), findFreeSlot l = l.findIdx? (fun s => s.isNone)) ∧
    (∀ cs : List (List (Option T)),
      findFreeInChunks cs
        = (cs.findIdx? (fun ch => (findFreeSlot ch).isSome)).bind
            (fun c => (cs[c]?.bind findFreeSlot).map (fun i => (c, i)))) :=
  ⟨fun i h => focfs_static K m i h,
   fun h1 c i h2 => focfs_chunk K m c i h1 h2,
   fun h1 h2 fb h3 => focfs_newChunk K m fb h1 h2 h3,
   fun h1 h2 h3 => focfs_fail K m h1 h2 h3,
   fun l => findFreeSlot_eq_findIdx l,
   fun cs => findFreeInChunks_eq_findIdx cs⟩

/-- Witness for C4 at concrete inputs: a container whose static array has its
free slot at index 1 hands that slot out, and an exhausted container fails
with no state change. -/
theorem findOrCreateFreeSlot_search_order_witness :
    findOrCreateFreeSlot 3 (Multiset.mk [some 1, none] [] 2)
      = (some (SlotRef.inStatic 1), Multiset.mk [some 1, none] [] 2) ∧
    findOrCreateFreeSlot 3 (Multiset.mk [some 1] [[some 2]] 0)
      = (none, Multiset.mk [some 1] [[some 2]] 0) :=
  ⟨(findOrCreateFreeSlot_search_order 3 (Multiset.mk [some 1, none] [] 2)).1 1 (by decide),
   (findOrCreateFreeSlot_search_order 3 (Multiset.mk [some 1] [[some 2]] 0)).2.2.2.1
     (by decide) (by decide) rfl⟩

/-- Claim C3: `emplace` returns `none` exactly when every static slot is
occupied, every slot of every existing chunk is occupied, and the allocator
has no block left (allocator exhaustion); and in that failure case nothing is
constructed: the returned container state — every slot, the chunk list, the
allocator, hence also `getSize` — is the input state. -/
theorem emplace_none_iff_exhausted (K : Nat) (v : T) (m : Multiset T) :
    ((emplace K v m).1 = none ↔
      ((∀ s ∈ m.static_, s.isSome = true) ∧
       (∀ c ∈ m.chunks, ∀ s ∈ c, s.isSome = true) ∧ m.freeBlocks = 0)) ∧
    ((emplace K v m).1 = none → (emplace K v m).2 = m) := by
  cases hs : findFreeSlot m.static_ with
  | some i =>
    have he : emplace K v m
        = (some (SlotRef.inStatic i), setSlot m (SlotRef.inStatic i) (some v)) := by
      unfold emplace
      rw [focfs_static K m i hs]
    rw [he]
    refine ⟨⟨fun hx => absurd hx (by simp), ?_⟩, fun hx => absurd hx (by simp)⟩
    rintro ⟨hstat, -, -⟩
    rw [(findFreeSlot_none_iff m.static_).mpr hstat] at hs
    cases hs
  | none =>
    cases hc : findFreeInChunks m.chunks with
    | some ci =>
      obtain ⟨c, i⟩ := ci
      have he : emplace K v m
          = (some (SlotRef.inChunk c i), setSlot m (SlotRef.inChunk c i) (some v)) := by
        unfold emplace
        rw [focfs_chunk K m c i hs hc]
      rw [he]
      refine ⟨⟨fun hx => absurd hx (by simp), ?_⟩, fun hx => absurd hx (by simp)⟩
      rintro ⟨-, hch, -⟩
      rw [(findFreeInChunks_none_iff m.chunks).mpr hch] at hc
      cases hc
    | none =>
      cases hfb : m.freeBlocks with
      | zero =>
        have he : emplace K v m = (none, m) := by
          unfold emplace
          rw [focfs_fail K m hs hc hfb]
        rw [he]
        exact ⟨⟨fun _ => ⟨(findFreeSlot_none_iff _).mp hs,
          (findFreeInChunks_none_iff _).mp hc, rfl⟩, fun _ => rfl⟩, fun _ => rfl⟩
      | succ fb =>
        have he : emplace K v m
            = (some (SlotRef.inChunk 0 0),
               setSlot
                 { static_ := m.static_, chunks := List.replicate K none :: m.chunks,
                   freeBlocks := fb }
                 (SlotRef.inChunk 0 0) (some v)) := by
          unfold emplace
          rw [focfs_newChunk K m fb hs hc hfb]
        rw [he]
        refine ⟨⟨fun hx => absurd hx (by simp), ?_⟩, fun hx => absurd hx (by simp)⟩
        rintro ⟨-, -, h0⟩
        exact absurd h0 (Nat.succ_ne_zero fb)

/-- Witness for C3: a full container (one occupied static slot, one full
chunk, exhausted allocator) makes `emplace` fail with no state change. -/
theorem emplace_none_iff_exhausted_witness :
    (emplace 1 (7 : Nat) (Multiset.mk [some 1] [[some 2]] 0)).1 = none ∧
    (emplace 1 (7 : Nat) (Multiset.mk [some 1] [[some 2]] 0)).2
      = Multiset.mk [some 1] [[some 2]] 0 :=
  ⟨(emplace_none_iff_exhausted 1 7 (Multiset.mk [some 1] [[some 2]] 0)).1.mpr
      ⟨by decide, by decide, rfl⟩,
   (emplace_none_iff_exhausted 1 7 (Multiset.mk [some 1] [[some 2]] 0)).2
      ((emplace_none_iff_exhausted 1 7 (Multiset.mk [some 1] [[some 2]] 0)).1.mpr
        ⟨by decide, by decide, rfl⟩)⟩

/-- Claim C10: whenever `findOrCreateFreeSlot` returns a slot reference, the
slot at that reference — in the state it also returns — exists and is
unoccupied (its element pointer is null), so the assertion
`UAVCAN_ASSERT(item->ptr == NULL)` checked at the start of every `emplace`
variant before in-place construction holds. -/
theorem findOrCreateFreeSlot_gives_free_slot (K : Nat) (m : Multiset T) (r : SlotRef)
    (hK : 0 < K) (h : (findOrCreateFreeSlot K m).1 = some r) :
    slotAt (findOrCreateFreeSlot K m).2 r = some none := by
  cases hs : findFreeSlot m.static_ with
  | some i =>
    rw [focfs_static K m i hs] at h ⊢
    injection h with h
    subst h
    simpa [slotAt] using findFreeSlot_get m.static_ i hs
  | none =>
    cases hc : findFreeInChunks m.chunks with
    | some ci =>
      obtain ⟨c, i⟩ := ci
      rw [focfs_chunk K m c i hs hc] at h ⊢
      injection h with h
      subst h
      obtain ⟨ch, hch, hfree⟩ := findFreeInChunks_get m.chunks c i hc
      simp [slotAt, hch, findFreeSlot_get ch i hfree]
    | none =>
      cases hfb : m.freeBlocks with
      | zero =>
        rw [focfs_fail K m hs hc hfb] at h
        cases h
      | succ fb =>
        rw [focfs_newChunk K m fb hs hc hfb] at h ⊢
        injection h with h
        subst h
        simp [slotAt, List.getElem?_replicate, hK]

/-- Witness for C10: with one free static slot at index 1, the returned slot
reference points at an empty slot. -/
theorem findOrCreateFreeSlot_gives_free_slot_witness :
    slotAt (findOrCreateFreeSlot 2 (Multiset.mk [some 1, none] [] 0)).2
        (SlotRef.inStatic 1) = some none :=
  findOrCreateFreeSlot_gives_free_slot 2 (Multiset.mk [some 1, none] [] 0)
    (SlotRef.inStatic 1) (by decide) (by decide)

/-! ### The chunk invariant -/

theorem any_isSome_set (l : List (Option T)) (i : Nat) (v : T)
    (h : l.any Option.isSome = true) : (l.set i (some v)).any Option.isSome = true := by
  induction l generalizing i with
  | nil => simp at h
  | cons hd tl ih =>
    cases i with
    | zero => simp
    | succ k =>
      simp only [List.set_cons_succ, List.any_cons, Bool.or_eq_true] at h ⊢
      rcases h with h1 | h2
      · exact Or.inl h1
      · exact Or.inr (ih k h2)

theorem chunksNonEmpty_setSlot (m : Multiset T) (r : SlotRef) (v : T)
    (h : ChunksNonEmpty m) : ChunksNonEmpty (setSlot m r (some v)) := by
  cases r with
  | inStatic i => exact h
  | inChunk c i =>
    intro ch hch
    simp only [setSlot] at hch
    cases hg : m.chunks[c]? with
    | none => rw [hg] at hch; exact h ch hch
    | some ch0 =>
      rw [hg] at hch
      rcases List.mem_or_eq_of_mem_set hch with h1 | h2
      · exact h ch h1
      · subst h2
        exact any_isSome_set ch0 i v (h ch0 (List.getElem?_mem hg))

theorem chunksNonEmpty_emplace (K : Nat) (v : T) (m : Multiset T) (hK : 0 < K)
    (h : ChunksNonEmpty m) : ChunksNonEmpty (emplace K v m).2 := by
  cases hs : findFreeSlot m.static_ with
  | some i =>
    have he : (emplace K v m).2 = setSlot m (SlotRef.inStatic i) (some v) := by
      unfold emplace
      rw [focfs_static K m i hs]
    rw [he]
    exact chunksNonEmpty_setSlot m _ v h
  | none =>
    cases hc : findFreeInChunks m.chunks with
    | some ci =>
      obtain ⟨c, i⟩ := ci
      have he : (emplace K v m).2 = setSlot m (SlotRef.inChunk c i) (some v) := by
        unfold emplace
        rw [focfs_chunk K m c i hs hc]
      rw [he]
      exact chunksNonEmpty_setSlot m _ v h
    | none =>
      cases hfb : m.freeBlocks with
      | zero =>
        have he : (emplace K v m).2 = m := by
          unfold emplace
          rw [focfs_fail K m hs hc hfb]
        rw [he]
        exact h
      | succ fb =>
        have he : (emplace K v m).2
            = setSlot
                (Multiset.mk m.static_ (List.replicate K none :: m.chunks) fb)
                (SlotRef.inChunk 0 0) (some v) := by
          unfold emplace
          rw [focfs_newChunk K m fb hs hc hfb]
        rw [he]
        intro ch hch
        simp only [setSlot, List.getElem?_cons_zero, List.set_cons_zero] at hch
        rcases List.mem_cons.mp hch with rfl | htl
        · obtain ⟨k, rfl⟩ : ∃ k, K = k + 1 := ⟨K - 1, by omega⟩
          simp [List.replicate_succ]
        · exact h ch htl

theorem chunksNonEmpty_removeWhere (p : T → Bool) (strat : RemoveStrategy)
    (m : Multiset T) (h : ChunksNonEmpty m) :
    ChunksNonEmpty (removeWhere p strat m) := by
  unfold removeWhere
  by_cases hq : 0 < (removeChunks p strat (removeSlots p strat m.static_).2 m.chunks).2
  · simp only [hq, if_true]
    intro ch hch
    simp only [compact, compactChunks_fst] at hch
    exact (List.mem_filter.mp hch).2
  · simp only [hq, if_false]
    intro ch hch
    have h0 : (removeChunks p strat (removeSlots p strat m.static_).2 m.chunks).2 = 0 := by
      omega
    rw [(removeChunks_count_zero p strat m.chunks _ h0).1] at hch
    exact h ch hch

/-- Claim C5: provided every chunk held an occupied slot before (the reachable
states' invariant) and the chunk capacity is positive, every mutating public
operation leaves every chunk in the list with at least one occupied slot:
`emplace` either fills an existing slot or constructs into slot 0 of the chunk
it just linked, and any removal that destroyed at least one element runs the
compaction pass, which keeps exactly the chunks having an occupied slot — in
their existing list positions — and unlinks and releases the fully empty ones
(last conjunct; the count of released chunks is added back to the allocator by
`compact`).  The read-only operations return no container state. -/
theorem every_chunk_occupied_after_ops (K : Nat) (v : T) (p : T → Bool)
    (strat : RemoveStrategy) (m : Multiset T) (hK : 0 < K) (h : ChunksNonEmpty m) :
    ChunksNonEmpty (emplace K v m).2 ∧
    ChunksNonEmpty (removeWhere p strat m) ∧
    ChunksNonEmpty (clear m) ∧
    (compact m).chunks = m.chunks.filter (fun c => c.any Option.isSome) :=
  ⟨chunksNonEmpty_emplace K v m hK h,
   chunksNonEmpty_removeWhere p strat m h,
   chunksNonEmpty_removeWhere (fun _ => true) RemoveAll m h,
   by simp [compact, compactChunks_fst]⟩

/-- Witness for C5 at a concrete container with one occupied static slot and
one half-full chunk. -/
theorem every_chunk_occupied_after_ops_witness :
    ChunksNonEmpty (emplace 2 (5 : Nat) (Multiset.mk [some 1] [[some 2, none]] 1)).2 ∧
    ChunksNonEmpty
      (removeWhere (fun t => t == 2) RemoveAll (Multiset.mk [some 1] [[some 2, none]] 1)) ∧
    ChunksNonEmpty (clear (Multiset.mk [some 1] [[some 2, none]] 1)) ∧
    (compact (Multiset.mk [some 1] [[some 2, none]] 1)).chunks
      = [[some 2, none]].filter (fun c => c.any Option.isSome) :=
  every_chunk_occupied_after_ops 2 (5 : Nat) (fun t => t == 2) RemoveAll
    (Multiset.mk [some 1] [[some 2, none]] 1) (by decide)
    (by unfold ChunksNonEmpty; decide)

/-! ### `clear` -/

theorem elems_clear (m : Multiset T) : elems (clear m) = [] := by
  have h := removeAllWhere_elems (fun _ => true) m
  rw [show clear m = removeAllWhere (fun _ => true) m from rfl, h]
  simp

theorem removeChunks_length (p : T → Bool) (strat : RemoveStrategy)
    (n : Nat) (cs : List (List (Option T))) :
    (removeChunks p strat n cs).1.length = cs.length := by
  induction cs generalizing n with
  | nil => rfl
  | cons c rest ih =>
    by_cases hg : 0 < n ∧ strat = RemoveOne
    · simp [removeChunks, if_pos hg]
    · rw [removeChunks_cons_go p strat n c rest hg]
      simp [ih]

theorem elemsOfSlots_eq_nil_iff (l : List (Option T)) :
    elemsOfSlots l = [] ↔ ∀ s ∈ l, s = none := by
  induction l with
  | nil => simp [elemsOfSlots]
  | cons hd tl ih =>
    cases hd with
    | none => simp [elemsOfSlots_cons_none, ih]
    | some t => simp [elemsOfSlots_cons_some]

theorem any_isSome_false_iff (l : List (Option T)) :
    l.any Option.isSome = false ↔ ∀ s ∈ l, s = none := by
  induction l with
  | nil => simp
  | cons hd tl ih => cases hd <;> simp [ih]

/-- Claim C8: after `clear()` on a container satisfying the chunk invariant,
`isEmpty` holds, `getSize` is `0`, every static slot is unoccupied, the chunk
list is empty, and every dynamic chunk went back to the allocator — the
allocator's free-block count grows by exactly the number of chunks the
container had. -/
theorem clear_empties_everything (m : Multiset T) (h : ChunksNonEmpty m) :
    isEmpty (clear m) = true ∧
    getSize (clear m) = 0 ∧
    (∀ s ∈ (clear m).static_, s = none) ∧
    (clear m).chunks = [] ∧
    (clear m).freeBlocks = m.freeBlocks + m.chunks.length := by
  have helems : elems (clear m) = [] := elems_clear m
  have hempty : isEmpty (clear m) = true := by
    rw [isEmpty, find_eq_spec, helems]
    rfl
  have hsize : getSize (clear m) = 0 := by
    rw [getSize_eq_length_elems, helems]
    rfl
  have hstat : ∀ s ∈ (clear m).static_, s = none := by
    have hnil : elemsOfSlots (clear m).static_ = [] := by
      have h2 := helems
      rw [elems] at h2
      exact (List.append_eq_nil.mp h2).1
    exact (elemsOfSlots_eq_nil_iff _).mp hnil
  refine ⟨hempty, hsize, hstat, ?_⟩
  show ((removeWhere (fun _ => true) RemoveAll m).chunks = [] ∧
    (removeWhere (fun _ => true) RemoveAll m).freeBlocks
      = m.freeBlocks + m.chunks.length)
  unfold removeWhere
  by_cases hq : 0 < (removeChunks (fun _ => true) RemoveAll
      (removeSlots (fun _ => true) RemoveAll m.static_).2 m.chunks).2
  · simp only [hq, if_true]
    have hallnil : ∀ c ∈ (removeChunks (fun _ => true) RemoveAll
        (removeSlots (fun _ => true) RemoveAll m.static_).2 m.chunks).1,
        c.any Option.isSome = false := by
      intro c hc
      have hflat := (removeChunks_all_spec (fun _ => true)
        (removeSlots (fun _ => true) RemoveAll m.static_).2 m.chunks).1
      have h0 : (((removeChunks (fun _ => true) RemoveAll
          (removeSlots (fun _ => true) RemoveAll m.static_).2 m.chunks).1).map
            elemsOfSlots).flatten = [] := by
        rw [hflat]
        simp
      have hcnil : elemsOfSlots c = [] :=
        List.flatten_eq_nil_iff.mp h0 (elemsOfSlots c) (List.mem_map_of_mem _ hc)
      exact (any_isSome_false_iff c).mpr ((elemsOfSlots_eq_nil_iff c).mp hcnil)
    constructor
    · simp only [compact, compactChunks_fst]
      rw [List.filter_eq_nil_iff]
      intro c hc
      simp [hallnil c hc]
    · simp only [compact, compactChunks_snd]
      have hcp : List.countP (fun c => !(c.any Option.isSome))
          ((removeChunks (fun _ => true) RemoveAll
            (removeSlots (fun _ => true) RemoveAll m.static_).2 m.chunks).1)
          = ((removeChunks (fun _ => true) RemoveAll
            (removeSlots (fun _ => true) RemoveAll m.static_).2 m.chunks).1).length := by
        rw [List.countP_eq_length]
        intro c hc
        simp [hallnil c hc]
      rw [hcp, removeChunks_length]
  · simp only [hq, if_false]
    have h0 : (removeChunks (fun _ => true) RemoveAll
        (removeSlots (fun _ => true) RemoveAll m.static_).2 m.chunks).2 = 0 := by
      omega
    obtain ⟨hcs, -⟩ := removeChunks_count_zero (fun _ => true) RemoveAll m.chunks _ h0
    have hcount := (removeChunks_all_spec (fun _ => true)
      (removeSlots (fun _ => true) RemoveAll m.static_).2 m.chunks).2
    have hflatlen : ((m.chunks.map elemsOfSlots).flatten).length = 0 := by
      have hc0 : List.countP (fun _ => true) ((m.chunks.map elemsOfSlots).flatten) = 0 := by
        omega
      have hlen : List.countP (fun _ => true) ((m.chunks.map elemsOfSlots).flatten)
          = ((m.chunks.map elemsOfSlots).flatten).length :=
        List.countP_eq_length.mpr (fun _ _ => rfl)
      omega
    have hflatnil : ((m.chunks.map elemsOfSlots).flatten) = [] :=
      List.eq_nil_of_length_eq_zero hflatlen
    have hchunks : m.chunks = [] := by
      cases hcse : m.chunks with
      | nil => rfl
      | cons c rest =>
        exfalso
        have hcmem := h c (hcse ▸ List.mem_cons_self c rest)
        rw [hcse] at hflatnil
        have hcnil : elemsOfSlots c = [] :=
          List.flatten_eq_nil_iff.mp hflatnil (elemsOfSlots c)
            (List.mem_map_of_mem _ (List.mem_cons_self c rest))
        have hfalse := (any_isSome_false_iff c).mpr ((elemsOfSlots_eq_nil_iff c).mp hcnil)
        rw [hcmem] at hfalse
        cases hfalse
    constructor
    · rw [hcs, hchunks]
    · rw [hchunks]
      simp

/-- Witness for C8 on a concrete container with two static slots and one
chunk. -/
theorem clear_empties_everything_witness :
    isEmpty (clear (Multiset.mk [some 1, none] [[some 2]] 0)) = true ∧
    (clear (Multiset.mk ([some 1, none] : List (Option Nat)) [[some 2]] 0)).chunks = [] ∧
    (clear (Multiset.mk ([some 1, none] : List (Option Nat)) [[some 2]] 0)).freeBlocks = 1 := by
  have h := clear_empties_everything (Multiset.mk ([some 1, none] : List (Option Nat)) [[some 2]] 0)
    (by unfold ChunksNonEmpty; decide)
  exact ⟨h.1, h.2.2.2.1, h.2.2.2.2⟩

/-! ### Size accounting along operation sequences -/

theorem elemsOfSlots_set_some_length (l : List (Option T)) (i : Nat) (v : T)
    (h : l[i]? = some none) :
    (elemsOfSlots (l.set i (some v))).length = (elemsOfSlots l).length + 1 := by
  induction l generalizing i with
  | nil => simp at h
  | cons hd tl ih =>
    cases i with
    | zero =>
      simp only [List.getElem?_cons_zero, Option.some.injEq] at h
      subst h
      simp [List.set_cons_zero, elemsOfSlots_cons_some, elemsOfSlots_cons_none]
    | succ k =>
      simp only [List.getElem?_cons_succ] at h
      cases hd with
      | none => simp [List.set_cons_succ, elemsOfSlots_cons_none, ih k h]
      | some t => simp [List.set_cons_succ, elemsOfSlots_cons_some, ih k h]

theorem chunks_set_some_length (cs : List (List (Option T))) (c i : Nat)
    (ch : List (Option T)) (v : T)
    (hc : cs[c]? = some ch) (hi : ch[i]? = some none) :
    (((cs.set c (ch.set i (some v))).map elemsOfSlots).flatten).length
      = ((cs.map elemsOfSlots).flatten).length + 1 := by
  induction cs generalizing c with
  | nil => simp at hc
  | cons c0 rest ih =>
    cases c with
    | zero =>
      simp only [List.getElem?_cons_zero, Option.some.injEq] at hc
      subst hc
      simp only [List.set_cons_zero, List.map_cons, List.flatten_cons, List.length_append,
        elemsOfSlots_set_some_length c0 i v hi]
      omega
    | succ k =>
      simp only [List.getElem?_cons_succ] at hc
      simp only [List.set_cons_succ, List.map_cons, List.flatten_cons, List.length_append,
        ih k hc]
      omega

theorem elemsOfSlots_replicate_none (k : Nat) :
    elemsOfSlots (List.replicate k (none : Option T)) = [] := by
  induction k with
  | zero => rfl
  | succ n ih => simpa [List.replicate_succ, elemsOfSlots_cons_none] using ih

theorem focfs_none_state (K : Nat) (m : Multiset T)
    (h : (findOrCreateFreeSlot K m).1 = none) :
    findOrCreateFreeSlot K m = (none, m) := by
  cases hs : findFreeSlot m.static_ with
  | some i => rw [focfs_static K m i hs] at h; simp at h
  | none =>
    cases hc : findFreeInChunks m.chunks with
    | some ci =>
      obtain ⟨c, i⟩ := ci
      rw [focfs_chunk K m c i hs hc] at h
      simp at h
    | none =>
      cases hfb : m.freeBlocks with
      | zero => exact focfs_fail K m hs hc hfb
      | succ fb =>
        rw [focfs_newChunk K m fb hs hc hfb] at h
        simp at h

theorem emplace_none_state (K : Nat) (v : T) (m : Multiset T)
    (h : (emplace K v m).1 = none) : (emplace K v m).2 = m := by
  cases hfull : findOrCreateFreeSlot K m with
  | mk o m1 =>
    cases o with
    | some r =>
      have hsome : (emplace K v m).1 = some r := by
        unfold emplace
        rw [hfull]
      rw [hsome] at h
      cases h
    | none =>
      have hm : findOrCreateFreeSlot K m = (none, m) :=
        focfs_none_state K m (by rw [hfull])
      unfold emplace
      rw [hm]

theorem emplace_success_size (K : Nat) (v : T) (m : Multiset T) (hK : 0 < K)
    (r : SlotRef) (h : (emplace K v m).1 = some r) :
    getSize (emplace K v m).2 = getSize m + 1 := by
  rw [getSize_eq_length_elems, getSize_eq_length_elems]
  cases hs : findFreeSlot m.static_ with
  | some i =>
    have he : (emplace K v m).2 = setSlot m (SlotRef.inStatic i) (some v) := by
      unfold emplace
      rw [focfs_static K m i hs]
    rw [he]
    simp only [setSlot, elems, List.length_append,
      elemsOfSlots_set_some_length m.static_ i v (findFreeSlot_get m.static_ i hs)]
    omega
  | none =>
    cases hc : findFreeInChunks m.chunks with
    | some ci =>
      obtain ⟨c, i⟩ := ci
      have he : (emplace K v m).2 = setSlot m (SlotRef.inChunk c i) (some v) := by
        unfold emplace
        rw [focfs_chunk K m c i hs hc]
      rw [he]
      obtain ⟨ch, hch, hfree⟩ := findFreeInChunks_get m.chunks c i hc
      simp only [setSlot, hch, elems, List.length_append,
        chunks_set_some_length m.chunks c i ch v hch (findFreeSlot_get ch i hfree)]
      omega
    | none =>
      cases hfb : m.freeBlocks with
      | zero =>
        have he : (emplace K v m).1 = none := by
          unfold emplace
          rw [focfs_fail K m hs hc hfb]
        rw [he] at h
        cases h
      | succ fb =>
        have he : (emplace K v m).2
            = setSlot
                (Multiset.mk m.static_ (List.replicate K none :: m.chunks) fb)
                (SlotRef.inChunk 0 0) (some v) := by
          unfold emplace
          rw [focfs_newChunk K m fb hs hc hfb]
        rw [he]
        obtain ⟨k, rfl⟩ : ∃ k, K = k + 1 := ⟨K - 1, by omega⟩
        simp only [setSlot, List.getElem?_cons_zero, List.set_cons_zero, elems,
          List.map_cons, List.flatten_cons, List.length_append, List.replicate_succ,
          elemsOfSlots_cons_some, elemsOfSlots_cons_none, elemsOfSlots_replicate_none]
        simp
        omega

theorem countP_not_add (p : T → Bool) (l : List T) :
    (l.filter (fun t => !p t)).length + l.countP p = l.length := by
  induction l with
  | nil => rfl
  | cons t rest ih =>
    by_cases h : p t <;> simp [List.filter_cons, List.countP_cons, h] <;> omega

theorem getSize_removeFirstWhere (p : T → Bool) (m : Multiset T) :
    getSize (removeFirstWhere p m)
      = getSize m - (if (elems m).any p then 1 else 0) := by
  rw [getSize_eq_length_elems, getSize_eq_length_elems, removeFirstWhere_elems,
    List.length_eraseP]
  by_cases h : (elems m).any p = true <;> simp [h]

theorem getSize_removeAllWhere (p : T → Bool) (m : Multiset T) :
    getSize (removeAllWhere p m) = getSize m - (elems m).countP p := by
  rw [getSize_eq_length_elems, getSize_eq_length_elems, removeAllWhere_elems]
  have := countP_not_add p (elems m)
  omega

theorem getSize_runOp (K : Nat) (hK : 0 < K) (o : Op T) (m : Multiset T) :
    getSize (runOp K o m) = opDelta K o m (getSize m) := by
  cases o with
  | emplace v =>
    simp only [runOp, opDelta]
    cases h : (emplace K v m).1 with
    | none => rw [emplace_none_state K v m h]; simp
    | some r => rw [emplace_success_size K v m hK r h]; simp
  | removeFirstWhere p =>
    simp only [runOp, opDelta]
    exact getSize_removeFirstWhere p m
  | removeAllWhere p =>
    simp only [runOp, opDelta]
    exact getSize_removeAllWhere p m
  | clear =>
    simp only [runOp, opDelta]
    have h0 : getSize (clear m) = 0 := by
      rw [getSize_eq_length_elems, elems_clear]
      rfl
    rw [h0, getSize_eq_length_elems m]
    omega

theorem getSize_runOps (K : Nat) (hK : 0 < K) (ops : List (Op T)) (m : Multiset T)
    (n : Nat) (hn : getSize m = n) :
    getSize (runOps K ops m) = countAfter K ops m n := by
  induction ops generalizing m n with
  | nil => simpa [runOps, countAfter] using hn
  | cons o rest ih =>
    simp only [runOps, countAfter]
    exact ih (runOp K o m) (opDelta K o m n) (by rw [getSize_runOp K hK o m, hn])

/-- Claim C6: `getSize()` — the source's sum of the occupied-slot counts of
the static array and of every chunk — always equals the number of stored
elements (the traversal-list length), and along any sequence of mutating
operations it equals the independently maintained tally `countAfter`: plus one
per successful emplace, minus the number of removed elements computed from the
element list, on any start state (hence on every reachable state). -/
theorem getSize_matches_independent_count (K : Nat) (hK : 0 < K) :
    (∀ m : Multiset T, getSize m = (elems m).length) ∧
    (∀ (ops : List (Op T)) (m : Multiset T),
      getSize (runOps K ops m) = countAfter K ops m (getSize m)) :=
  ⟨fun m => getSize_eq_length_elems m,
   fun ops m => getSize_runOps K hK ops m (getSize m) rfl⟩

/-- Witness for C6: a concrete run — two emplaces into an empty two-slot
container, then removal of the odd elements — whose final size matches the
independent tally. -/
theorem getSize_matches_independent_count_witness :
    getSize (runOps 3 [Op.emplace 1, Op.emplace 2, Op.removeAllWhere (fun t => t % 2 == 1)]
        (Multiset.mk ([none, none] : List (Option Nat)) [] 1))
      = countAfter 3 [Op.emplace 1, Op.emplace 2, Op.removeAllWhere (fun t => t % 2 == 1)]
          (Multiset.mk ([none, none] : List (Option Nat)) [] 1)
          (getSize (Multiset.mk ([none, none] : List (Option Nat)) [] 1)) :=
  (getSize_matches_independent_count 3 (by decide)).2
    [Op.emplace 1, Op.emplace 2, Op.removeAllWhere (fun t => t % 2 == 1)]
    (Multiset.mk ([none, none] : List (Option Nat)) [] 1)

end Uavcan
